import Mathlib

/-!
Verification of the image-thresholding repository (three C++ variants of a
BMP binary-threshold filter: `src/2_hilos`, `src/3_procesos`, `src/4_openMP`).

The development shallowly embeds the C++ code:
* `Pixel` models `struct Pixel { unsigned char blue, green, red; }`; channels
  are `Nat` values, well-formed when `< 256`.
* `umbralizar` embeds the kernel of `src/2_hilos/umbralizar.cpp` lines 79-86
  (identical in the other two variants).  In the C++ source the operands of
  `pixel.red + pixel.green + pixel.blue` undergo integral promotion to `int`,
  so the sum is exact (never reduced mod 256); the quotient is then stored
  into the `unsigned char` variable `promedio`, which truncates mod 256.
* the partitioner embeds `main` of `src/2_hilos/umbralizar.cpp` lines 151-161.
* the BMP writer/reader embed `guardarMatrizEnBMP` / `leerArchivoBMP` at the
  byte-stream level; a file is a `List Nat` of bytes, and a read past the end
  of the stream yields 0, matching the zero-initialised `vector<Pixel>` rows
  whose bytes are left untouched when an `ifstream` read fails at EOF.
-/

/-- `struct Pixel { unsigned char blue; unsigned char green; unsigned char red; }`. -/
structure Pixel where
  blue : Nat
  green : Nat
  red : Nat
deriving Repr, DecidableEq

/-- Well-formedness: each channel fits in an `unsigned char`. -/
def Pixel.wf (p : Pixel) : Prop :=
  p.blue < 256 ∧ p.green < 256 ∧ p.red < 256

instance (p : Pixel) : Decidable p.wf := by
  unfold Pixel.wf; infer_instance

/-- The local `unsigned char promedio = (pixel.red + pixel.green + pixel.blue) / 3;`
of `umbralizar` (src/2_hilos/umbralizar.cpp line 80).  The three `unsigned char`
operands are promoted to `int`, so the sum is computed exactly; the store into
the `unsigned char` variable truncates mod 256. -/
def promedio (p : Pixel) : Nat :=
  ((p.red + p.green + p.blue) / 3) % 256

/-- `void umbralizar(Pixel& pixel, unsigned char umbral)`
(src/2_hilos/umbralizar.cpp lines 79-86): all three channels become 0 when
`promedio < umbral`, and 255 otherwise. -/
def umbralizar (p : Pixel) (umbral : Nat) : Pixel :=
  if promedio p < umbral then ⟨0, 0, 0⟩ else ⟨255, 255, 255⟩

/-! ## Partitioner (src/2_hilos/umbralizar.cpp lines 151-161)

`int tamanoBloque = matriz.size() / numHilos;` and, for each thread `i`,
`int inicio = i * tamanoBloque;`
`int fin = (i == numHilos - 1) ? matriz.size() : inicio + tamanoBloque;`.
-/

/-- `tamanoBloque`: block size `height / numHilos` (integer division). -/
def tamanoBloque (height numHilos : Nat) : Nat :=
  height / numHilos

/-- `inicio` of worker `i`. -/
def inicioHilo (height numHilos i : Nat) : Nat :=
  i * tamanoBloque height numHilos

/-- `fin` of worker `i`: the last worker absorbs the remainder up to `height`. -/
def finHilo (height numHilos i : Nat) : Nat :=
  if i = numHilos - 1 then height
  else inicioHilo height numHilos i + tamanoBloque height numHilos

/-! ## BMP codec (src/2_hilos/umbralizar.cpp lines 48-77 and 96-136)

A file is modelled as a byte stream `List Nat` (each entry < 256).  The
packed `BMPHeader` struct occupies 54 bytes; multi-byte fields are stored
little-endian.  The reader is a function of the file content: reading a byte
past the end of the stream yields 0, which matches the C++ behaviour where
the destination `vector<Pixel>` rows are zero-initialised and an `ifstream`
read at EOF leaves them untouched.  Width and height are modelled as the
unsigned little-endian value of their 4 bytes, faithful to the source for
values below 2^31 (larger values overflow the C++ `int` fields). -/

/-- A pixel grid, `vector<vector<Pixel>>`. -/
abbrev Grid := List (List Pixel)

/-- The row padding amount used by both the reader (`archivo.seekg(header.width % 4,
ios::cur)`, line 73) and the writer (`for (int k = 0; k < matriz[0].size() % 4; ++k)`,
line 130): `width % 4`. -/
def padImpl (width : Nat) : Nat :=
  width % 4

/-- Modelled from the spec: the padding formula the spec calls
"the BMP-standard `(4 - (3*w) % 4) % 4`", for comparison with `padImpl`. -/
def bmpStandardPad (width : Nat) : Nat :=
  (4 - (3 * width) % 4) % 4

/-- Little-endian bytes of a 16-bit field. -/
def bytes2 (k : Nat) : List Nat :=
  [k % 256, k / 256 % 256]

/-- Little-endian bytes of a 32-bit field. -/
def bytes4 (k : Nat) : List Nat :=
  [k % 256, k / 256 % 256, k / 65536 % 256, k / 16777216 % 256]

/-- The 3 bytes of a `Pixel` as written by
`archivo.write(reinterpret_cast<const char*>(&matriz[i][j]), sizeof(Pixel))`:
blue, green, red in declaration order (each an `unsigned char`, hence mod 256). -/
def pixelBytes (p : Pixel) : List Nat :=
  [p.blue % 256, p.green % 256, p.red % 256]

/-- The 54 header bytes written by `guardarMatrizEnBMP`
(src/2_hilos/umbralizar.cpp lines 104-122), as a function of the grid's
`height = matriz.size()` and `width = matriz[0].size()`.  `fileSize` and
`dataSize` are `sizeof(BMPHeader) + height*((3*width) + width%4) + 2` and
`height*((3*width) + width%4) + 2` (the source adds a spurious `+2 for
padding`); `dataOffset = sizeof(BMPHeader) = 54`; `headerSize = 40`;
`planes = 1`; `bitsPerPixel = 24`; the remaining fields are 0. -/
def guardarHeader (height width : Nat) : List Nat :=
  [66, 77]
    ++ bytes4 (54 + height * (3 * width + padImpl width) + 2)
    ++ bytes4 0
    ++ bytes4 54
    ++ bytes4 40
    ++ bytes4 width
    ++ bytes4 height
    ++ bytes2 1
    ++ bytes2 24
    ++ bytes4 0
    ++ bytes4 (height * (3 * width + padImpl width) + 2)
    ++ bytes4 0
    ++ bytes4 0
    ++ bytes4 0
    ++ bytes4 0

/-- The inner pixel loop of the writer (lines 126-128): for each index `j` of
the given index list, write the 3 bytes of `matriz[i][j]`; an out-of-range
index is the vector access `matriz[i][j]` out of bounds (`none`). -/
def escribirFila (row : List Pixel) : List Nat → Option (List Nat)
  | [] => some []
  | j :: js =>
    match row.get? j with
    | none => none
    | some p =>
      match escribirFila row js with
      | none => none
      | some rest => some (pixelBytes p ++ rest)

/-- One row of pixel data as written by lines 126-133: `width` pixels of 3
bytes each, then `width % 4` zero padding bytes. -/
def filaBytes (row : List Pixel) (width : Nat) : Option (List Nat) :=
  (escribirFila row (List.range width)).map
    (fun bs => bs ++ List.replicate (padImpl width) 0)

/-- The outer row loop of the writer (lines 125-134): for each row index `i`
of the given index list, emit the bytes of row `i`. -/
def escribirFilas (m : Grid) (width : Nat) : List Nat → Option (List Nat)
  | [] => some []
  | i :: is_ =>
    match m.get? i with
    | none => none
    | some row =>
      match filaBytes row width, escribirFilas m width is_ with
      | some blk, some rest => some (blk ++ rest)
      | _, _ => none

/-- `void guardarMatrizEnBMP(const char*, const vector<vector<Pixel>>&)`
(src/2_hilos/umbralizar.cpp lines 96-136) as the byte stream it writes.
The function reads `matriz[0].size()` for the header fields and the loop
bounds, so an empty grid is an out-of-bounds access (`none`); the result is
the 54 header bytes followed by the padded rows. -/
def guardarMatrizEnBMP (m : Grid) : Option (List Nat) :=
  match m.get? 0 with
  | none => none
  | some fila0 =>
    (escribirFilas m fila0.length (List.range m.length)).map
      (fun data => guardarHeader m.length fila0.length ++ data)

/-- Little-endian read of a 16-bit header field at byte offset `off`. -/
def leU16 (bs : List Nat) (off : Nat) : Nat :=
  bs.getD off 0 + 256 * bs.getD (off + 1) 0

/-- Little-endian read of a 32-bit header field at byte offset `off`. -/
def leU32 (bs : List Nat) (off : Nat) : Nat :=
  bs.getD off 0 + 256 * bs.getD (off + 1) 0
    + 65536 * bs.getD (off + 2) 0 + 16777216 * bs.getD (off + 3) 0

/-- `vector<vector<Pixel>> leerArchivoBMP(const char*)`
(src/2_hilos/umbralizar.cpp lines 48-77) over the file content.  `none`
models a file that cannot be opened (`exit(1)`, line 53).  On an open file
the function reads the packed header — `bitsPerPixel` at offset 28,
`dataOffset` at offset 10, `width` at offset 18, `height` at offset 22 —
and exits with code 1 iff `bitsPerPixel != 24` (line 61).  Otherwise it
seeks to `dataOffset` and reads `height` rows of `width` 3-byte pixels,
skipping `width % 4` bytes after each row, so pixel `(i, j)` starts at byte
`dataOffset + i * (3*width + width%4) + 3*j`; bytes past the end of the
stream read as 0. -/
def leerArchivoBMP (file : Option (List Nat)) : Option Grid :=
  match file with
  | none => none
  | some bs =>
    if leU16 bs 28 ≠ 24 then none
    else
      some <|
        (List.range (leU32 bs 22)).map fun i =>
          (List.range (leU32 bs 18)).map fun j =>
            { blue := bs.getD (leU32 bs 10
                + i * (3 * leU32 bs 18 + padImpl (leU32 bs 18)) + 3 * j) 0
              green := bs.getD (leU32 bs 10
                + i * (3 * leU32 bs 18 + padImpl (leU32 bs 18)) + 3 * j + 1) 0
              red := bs.getD (leU32 bs 10
                + i * (3 * leU32 bs 18 + padImpl (leU32 bs 18)) + 3 * j + 2) 0 }

/-! ## Thresholding a grid (src/2_hilos/umbralizar.cpp lines 88-94 and 150-161,
src/3_procesos/umbralizar.cpp lines 129-152, src/4_openMP/umbralizar.cpp
lines 128-134)

The inner pixel loop runs `j` up to `matriz[0].size()`, the outer row loop
over the assigned `[inicio, fin)` row range.  Disjointness of the row ranges
(C3) lets the concurrent threads be modelled as a sequential fold. -/

/-- Inner loop `for (int j = 0; j < matriz[0].size(); ++j) umbralizar(matriz[i][j], umbral)`
starting at column `j`: entries at positions `< w` are thresholded. -/
def umbralizarFilaDesde (u w : Nat) : Nat → List Pixel → List Pixel
  | _, [] => []
  | j, p :: ps =>
    (if j < w then umbralizar p u else p) :: umbralizarFilaDesde u w (j + 1) ps

/-- One row of the matrix after the inner loop. -/
def umbralizarFila (row : List Pixel) (u w : Nat) : List Pixel :=
  umbralizarFilaDesde u w 0 row

/-- Outer loop starting at row index `i`: rows with index in `[inicio, fin)`
are thresholded. -/
def umbralizarDesde (u w inicio fin_ : Nat) : Nat → Grid → Grid
  | _, [] => []
  | i, r :: rs =>
    (if inicio ≤ i ∧ i < fin_ then umbralizarFila r u w else r)
      :: umbralizarDesde u w inicio fin_ (i + 1) rs

/-- `void umbralizarMatriz(vector<vector<Pixel>>&, unsigned char, int inicio, int fin)`
(src/2_hilos/umbralizar.cpp lines 88-94): thresholds rows `[inicio, fin)`,
the inner loop bounded by `matriz[0].size()`. -/
def umbralizarMatriz (m : Grid) (u inicio fin_ : Nat) : Grid :=
  umbralizarDesde u (m.headD []).length inicio fin_ 0 m

/-- The thread variant (src/2_hilos/umbralizar.cpp lines 150-161): every
worker `i < numHilos` thresholds its row range `[inicioHilo, finHilo)`; the
ranges are disjoint (C3), so the parallel execution equals this fold. -/
def umbralizarHilos (m : Grid) (u numHilos : Nat) : Grid :=
  (List.range numHilos).foldl
    (fun acc i =>
      umbralizarMatriz acc u (inicioHilo m.length numHilos i)
        (finHilo m.length numHilos i))
    m

/-- The OpenMP variant (src/4_openMP/umbralizar.cpp lines 129-134): the
`collapse(2)` loop thresholds every `(i, j)` with `i < matriz.size()` and
`j < matriz[0].size()`. -/
def umbralizarOpenMP (m : Grid) (u : Nat) : Grid :=
  umbralizarMatriz m u 0 m.length

/-- The grid written by child process `i` of the process variant
(src/3_procesos/umbralizar.cpp lines 139-148): the child thresholds only its
own row range `[inicio, fin)` in its private copy-on-write image of the
matrix, then passes that matrix to `guardarMatrizEnBMP`. -/
def procesoHijo (m : Grid) (u numProcesos i : Nat) : Grid :=
  umbralizarMatriz m u (inicioHilo m.length numProcesos i)
    (finHilo m.length numProcesos i)

/-- The byte block the writer emits for one row: the row's pixels, three
bytes each, then `width % 4` zero padding bytes. -/
def bloqueFila (row : List Pixel) (width : Nat) : List Nat :=
  (row.map pixelBytes).flatten ++ List.replicate (padImpl width) 0

theorem promedio_wf (p : Pixel) (h : p.wf) :
    promedio p = (p.red + p.green + p.blue) / 3 := by
  obtain ⟨hb, hg, hr⟩ := h
  unfold promedio
  omega

/-- C1: for every 8-bit pixel and 8-bit threshold, `umbralizar` produces the
all-255 pixel iff `floor((r+g+b)/3) ≥ umbral` and the all-0 pixel otherwise;
in particular an average of exactly `umbral` gives 255 and an average of
`umbral - 1` gives 0. -/
theorem C1_umbralizar_iff (p : Pixel) (u : Nat)
    (hp : p.wf) (hu : u < 256) :
    (umbralizar p u = ⟨255, 255, 255⟩ ↔ u ≤ (p.red + p.green + p.blue) / 3)
    ∧ (umbralizar p u = ⟨0, 0, 0⟩ ↔ (p.red + p.green + p.blue) / 3 < u)
    ∧ ((p.red + p.green + p.blue) / 3 = u → umbralizar p u = ⟨255, 255, 255⟩)
    ∧ ((p.red + p.green + p.blue) / 3 + 1 = u → umbralizar p u = ⟨0, 0, 0⟩) := by
  have hprom := promedio_wf p hp
  unfold umbralizar
  rw [hprom]
  refine ⟨?_, ?_, ?_, ?_⟩
  · constructor
    · intro h
      by_contra hc
      rw [if_pos (by omega)] at h
      simpa using congrArg Pixel.red h
    · intro h
      rw [if_neg (by omega)]
  · constructor
    · intro h
      by_contra hc
      rw [if_neg (by omega)] at h
      simpa using congrArg Pixel.red h
    · intro h
      rw [if_pos h]
  · intro h
    rw [if_neg (by omega)]
  · intro h
    rw [if_pos (by omega)]

/-- Witness for C1 at the concrete pixel (r,g,b) = (100,110,120), threshold 110:
the average is 110, so the result is white. -/
theorem C1_umbralizar_iff_witness :
    umbralizar ⟨120, 110, 100⟩ 110 = ⟨255, 255, 255⟩ :=
  (C1_umbralizar_iff ⟨120, 110, 100⟩ 110 (by decide) (by decide)).2.2.1 (by decide)

/-- C2: after thresholding, every channel is exactly 0 or exactly 255, and the
three channels agree. -/
theorem C2_umbralizar_binary (p : Pixel) (u : Nat) :
    ((umbralizar p u).red = (umbralizar p u).green
      ∧ (umbralizar p u).green = (umbralizar p u).blue)
    ∧ ((umbralizar p u).red = 0 ∨ (umbralizar p u).red = 255) := by
  unfold umbralizar
  by_cases h : promedio p < u
  · rw [if_pos h]; exact ⟨⟨rfl, rfl⟩, Or.inl rfl⟩
  · rw [if_neg h]; exact ⟨⟨rfl, rfl⟩, Or.inr rfl⟩

/-- C8: the channel sum is computed exactly (integral promotion to `int`), so
for well-formed pixels the stored average equals `(r+g+b)/3` with no mod-256
wraparound; the all-255 pixel averages to 255, not to `floor((765 mod 256)/3)`. -/
theorem C8_promedio_no_wrap (p : Pixel) (hp : p.wf) :
    promedio p = (p.red + p.green + p.blue) / 3
    ∧ promedio ⟨255, 255, 255⟩ = 255
    ∧ ((255 + 255 + 255) % 256) / 3 ≠ 255 := by
  refine ⟨promedio_wf p hp, by decide, by decide⟩

/-- Witness for C8 at the all-255 pixel. -/
theorem C8_promedio_no_wrap_witness :
    promedio ⟨255, 255, 255⟩ = (255 + 255 + 255) / 3 :=
  (C8_promedio_no_wrap ⟨255, 255, 255⟩ (by decide)).1

/-- C9: thresholding is idempotent for every 8-bit threshold. -/
theorem C9_umbralizar_idempotent (p : Pixel) (u : Nat) (hu : u < 256) :
    umbralizar (umbralizar p u) u = umbralizar p u := by
  unfold umbralizar
  by_cases h : promedio p < u
  · rw [if_pos h, if_pos (by simpa [promedio] using (by omega : 0 < u))]
  · rw [if_neg h, if_neg (by simp [promedio]; omega)]

/-- Witness for C9 at pixel (10,20,30), threshold 255. -/
theorem C9_umbralizar_idempotent_witness :
    umbralizar (umbralizar ⟨30, 20, 10⟩ 255) 255 = umbralizar ⟨30, 20, 10⟩ 255 :=
  C9_umbralizar_idempotent ⟨30, 20, 10⟩ 255 (by decide)

theorem finHilo_le (height numHilos : Nat) (h1 : 1 ≤ numHilos)
    (h2 : numHilos ≤ height) (i : Nat) (hi : i < numHilos) :
    finHilo height numHilos i ≤ height := by
  unfold finHilo inicioHilo tamanoBloque
  by_cases hlast : i = numHilos - 1
  · rw [if_pos hlast]
  · rw [if_neg hlast]
    have hsucc : i + 1 ≤ numHilos := hi
    calc i * (height / numHilos) + height / numHilos
        = (i + 1) * (height / numHilos) := by ring
      _ ≤ numHilos * (height / numHilos) := Nat.mul_le_mul_right _ hsucc
      _ = height / numHilos * numHilos := Nat.mul_comm _ _
      _ ≤ height := Nat.div_mul_le_self height numHilos

theorem hilo_ranges_disjoint (height numHilos : Nat) (h1 : 1 ≤ numHilos)
    (i j : Nat) (hi : i < numHilos) (hj : j < numHilos) (hij : i < j) (r : Nat)
    (hri : inicioHilo height numHilos i ≤ r ∧ r < finHilo height numHilos i)
    (hrj : inicioHilo height numHilos j ≤ r ∧ r < finHilo height numHilos j) :
    False := by
  have hilt : i < numHilos - 1 := by omega
  have hfin : finHilo height numHilos i
      = (i + 1) * tamanoBloque height numHilos := by
    unfold finHilo inicioHilo
    rw [if_neg (by omega)]
    ring
  have hle : (i + 1) * tamanoBloque height numHilos
      ≤ inicioHilo height numHilos j := by
    unfold inicioHilo
    exact Nat.mul_le_mul_right _ (by omega)
  rw [hfin] at hri
  omega

/-- C3: for `1 ≤ W ≤ height`, the worker row ranges
`[inicioHilo h W i, finHilo h W i)` cover every row index below `height`
exactly once (each range also stays within `[0, height)`). -/
theorem C3_partition_exact_cover (height numHilos : Nat)
    (h1 : 1 ≤ numHilos) (h2 : numHilos ≤ height) :
    (∀ r, r < height → ∃! i, i < numHilos
        ∧ inicioHilo height numHilos i ≤ r ∧ r < finHilo height numHilos i)
    ∧ (∀ i, i < numHilos → finHilo height numHilos i ≤ height) := by
  constructor
  · intro r hr
    have hbs : 0 < tamanoBloque height numHilos := by
      unfold tamanoBloque
      exact Nat.one_le_div_iff (by omega) |>.mpr h2
    set bs := tamanoBloque height numHilos with hbsdef
    have hexists : ∃ i, i < numHilos
        ∧ inicioHilo height numHilos i ≤ r ∧ r < finHilo height numHilos i := by
      by_cases hcase : r < (numHilos - 1) * bs
      · refine ⟨r / bs, ?_, ?_, ?_⟩
        · have := (Nat.div_lt_iff_lt_mul hbs).mpr hcase
          omega
        · exact Nat.div_mul_le_self r bs
        · have hlt : r / bs < numHilos - 1 := (Nat.div_lt_iff_lt_mul hbs).mpr hcase
          unfold finHilo
          rw [if_neg (by omega)]
          unfold inicioHilo
          have hmod := Nat.div_add_mod r bs
          have hmlt := Nat.mod_lt r hbs
          calc r = bs * (r / bs) + r % bs := hmod.symm
            _ < bs * (r / bs) + bs := by omega
            _ = r / bs * bs + bs := by ring
      · refine ⟨numHilos - 1, by omega, ?_, ?_⟩
        · exact Nat.le_of_not_lt hcase
        · unfold finHilo
          rw [if_pos rfl]
          exact hr
    obtain ⟨i, hi⟩ := hexists
    refine ⟨i, hi, ?_⟩
    intro j hj
    rcases Nat.lt_trichotomy j i with hlt | heq | hgt
    · exact absurd (hilo_ranges_disjoint height numHilos h1 j i hj.1 hi.1 hlt r
        hj.2 hi.2) id
    · exact heq
    · exact absurd (hilo_ranges_disjoint height numHilos h1 i j hi.1 hj.1 hgt r
        hi.2 hj.2) id
  · exact fun i => finHilo_le height numHilos h1 h2 i

/-- Witness for C3 at height 5 with 2 workers. -/
theorem C3_partition_exact_cover_witness :
    (∀ r, r < 5 → ∃! i, i < 2
        ∧ inicioHilo 5 2 i ≤ r ∧ r < finHilo 5 2 i)
    ∧ (∀ i, i < 2 → finHilo 5 2 i ≤ 5) :=
  C3_partition_exact_cover 5 2 (by decide) (by decide)

/-- C5 (code bug): at the 2x1 all-black image with threshold 0 and 2 workers,
the thread and OpenMP variants both produce the fully thresholded (all-white)
grid, but each child of the process variant writes a grid in which only its
own row block is thresholded, so neither concurrent write of the shared
output file matches the claimed result. -/
theorem C5_procesos_child_diverges :
    umbralizarHilos [[⟨0, 0, 0⟩], [⟨0, 0, 0⟩]] 0 2
      = umbralizarOpenMP [[⟨0, 0, 0⟩], [⟨0, 0, 0⟩]] 0
    ∧ umbralizarOpenMP [[⟨0, 0, 0⟩], [⟨0, 0, 0⟩]] 0
      = [[⟨255, 255, 255⟩], [⟨255, 255, 255⟩]]
    ∧ procesoHijo [[⟨0, 0, 0⟩], [⟨0, 0, 0⟩]] 0 2 0
      ≠ umbralizarOpenMP [[⟨0, 0, 0⟩], [⟨0, 0, 0⟩]] 0
    ∧ procesoHijo [[⟨0, 0, 0⟩], [⟨0, 0, 0⟩]] 0 2 1
      ≠ umbralizarOpenMP [[⟨0, 0, 0⟩], [⟨0, 0, 0⟩]] 0 := by
  decide

/-! ## Writer structure lemmas -/

theorem escribirFila_map_succ (p : Pixel) (ps : List Pixel) (js : List Nat) :
    escribirFila (p :: ps) (js.map (· + 1)) = escribirFila ps js := by
  induction js with
  | nil => rfl
  | cons j js ih =>
    simp only [List.map_cons, escribirFila, List.get?_cons_succ, ih]

theorem escribirFila_range (row : List Pixel) :
    escribirFila row (List.range row.length) = some ((row.map pixelBytes).flatten) := by
  induction row with
  | nil => rfl
  | cons p ps ih =>
    rw [List.length_cons, List.range_succ_eq_map]
    show escribirFila (p :: ps) (0 :: (List.range ps.length).map (· + 1)) = _
    simp only [escribirFila, List.get?_cons_zero, escribirFila_map_succ, ih,
      List.map_cons, List.flatten_cons]

theorem filaBytes_eq (row : List Pixel) (w : Nat) (h : row.length = w) :
    filaBytes row w = some (bloqueFila row w) := by
  subst h
  unfold filaBytes bloqueFila
  rw [escribirFila_range]
  rfl

theorem escribirFilas_map_succ (r : List Pixel) (rs : Grid) (w : Nat)
    (js : List Nat) :
    escribirFilas (r :: rs) w (js.map (· + 1)) = escribirFilas rs w js := by
  induction js with
  | nil => rfl
  | cons j js ih =>
    simp only [List.map_cons, escribirFilas, List.get?_cons_succ, ih]

theorem escribirFilas_range (m : Grid) (w : Nat)
    (hrows : ∀ row ∈ m, row.length = w) :
    escribirFilas m w (List.range m.length)
      = some ((m.map (fun row => bloqueFila row w)).flatten) := by
  induction m with
  | nil => rfl
  | cons r rs ih =>
    rw [List.length_cons, List.range_succ_eq_map]
    show escribirFilas (r :: rs) w (0 :: (List.range rs.length).map (· + 1)) = _
    have hr : r.length = w := hrows r (List.mem_cons_self r rs)
    have ih2 := ih (fun row hrow => hrows row (List.mem_cons_of_mem r hrow))
    simp only [escribirFilas, List.get?_cons_zero, escribirFilas_map_succ, ih2,
      filaBytes_eq r w hr, List.map_cons, List.flatten_cons]

theorem guardarMatrizEnBMP_eq (m : Grid) (w : Nat) (hne : m ≠ [])
    (hrows : ∀ row ∈ m, row.length = w) :
    guardarMatrizEnBMP m
      = some (guardarHeader m.length w
          ++ (m.map (fun row => bloqueFila row w)).flatten) := by
  obtain ⟨fila0, rs, rfl⟩ : ∃ fila0 rs, m = fila0 :: rs := by
    cases m with
    | nil => exact absurd rfl hne
    | cons a l => exact ⟨a, l, rfl⟩
  have h0 : fila0.length = w := hrows fila0 (List.mem_cons_self fila0 rs)
  unfold guardarMatrizEnBMP
  rw [show (fila0 :: rs).get? 0 = some fila0 from rfl]
  simp only [h0, escribirFilas_range (fila0 :: rs) w hrows, Option.map_some']

/-- Length of the pixel part of a row block. -/
theorem pixelBytes_join_length (row : List Pixel) :
    ((row.map pixelBytes).flatten).length = 3 * row.length := by
  induction row with
  | nil => rfl
  | cons p ps ih =>
    simp only [List.map_cons, List.flatten_cons, List.length_append, ih,
      List.length_cons]
    unfold pixelBytes
    simp only [List.length_cons, List.length_nil]
    ring

theorem bloqueFila_length (row : List Pixel) (w : Nat) (h : row.length = w) :
    (bloqueFila row w).length = 3 * w + padImpl w := by
  unfold bloqueFila
  rw [List.length_append, pixelBytes_join_length, h, List.length_replicate]

/-! ## Reader lemmas -/

theorem guardarHeader_length (h w : Nat) : (guardarHeader h w).length = 54 := by
  simp [guardarHeader, bytes4, bytes2]

theorem guardarHeader_bpp (h w : Nat) : leU16 (guardarHeader h w) 28 = 24 := by
  simp [guardarHeader, bytes4, bytes2, leU16, List.getD]

theorem guardarHeader_dataOffset (h w : Nat) :
    leU32 (guardarHeader h w) 10 = 54 := by
  simp [guardarHeader, bytes4, bytes2, leU32, List.getD]

theorem guardarHeader_width (h w : Nat) (hw : w < 2 ^ 31) :
    leU32 (guardarHeader h w) 18 = w := by
  have e : leU32 (guardarHeader h w) 18
      = w % 256 + 256 * (w / 256 % 256) + 65536 * (w / 65536 % 256)
        + 16777216 * (w / 16777216 % 256) := by
    simp [guardarHeader, bytes4, bytes2, leU32, List.getD]
  rw [e]
  omega

theorem guardarHeader_height (h w : Nat) (hh : h < 2 ^ 31) :
    leU32 (guardarHeader h w) 22 = h := by
  have e : leU32 (guardarHeader h w) 22
      = h % 256 + 256 * (h / 256 % 256) + 65536 * (h / 65536 % 256)
        + 16777216 * (h / 16777216 % 256) := by
    simp [guardarHeader, bytes4, bytes2, leU32, List.getD]
  rw [e]
  omega

theorem getD_header_append (h w : Nat) (data : List Nat) (k : Nat)
    (hk : k < 54) :
    (guardarHeader h w ++ data).getD k 0 = (guardarHeader h w).getD k 0 :=
  List.getD_append _ _ _ _ (by rw [guardarHeader_length]; exact hk)

theorem leU16_header_append (h w : Nat) (data : List Nat) :
    leU16 (guardarHeader h w ++ data) 28 = 24 := by
  unfold leU16
  rw [getD_header_append h w data 28 (by omega),
    getD_header_append h w data 29 (by omega)]
  exact guardarHeader_bpp h w

theorem leU32_header_append (h w : Nat) (data : List Nat) (off : Nat)
    (hoff : off + 3 < 54) :
    leU32 (guardarHeader h w ++ data) off = leU32 (guardarHeader h w) off := by
  unfold leU32
  rw [getD_header_append h w data off (by omega),
    getD_header_append h w data (off + 1) (by omega),
    getD_header_append h w data (off + 2) (by omega),
    getD_header_append h w data (off + 3) (by omega)]

/-- Reading inside the `i`-th block of a flattened list of equal-length blocks. -/
theorem getD_flatten_blocks (blocks : List (List Nat)) (stride : Nat)
    (hall : ∀ b ∈ blocks, b.length = stride) (i r : Nat)
    (hi : i < blocks.length) (hr : r < stride) :
    blocks.flatten.getD (i * stride + r) 0 = (blocks.getD i []).getD r 0 := by
  induction blocks generalizing i with
  | nil => exact absurd hi (by simp)
  | cons b bs ih =>
    have hb : b.length = stride := hall b (List.mem_cons_self b bs)
    cases i with
    | zero =>
      rw [List.flatten_cons, Nat.zero_mul, Nat.zero_add,
        List.getD_append _ _ _ _ (by rw [hb]; exact hr)]
      rfl
    | succ i =>
      have hi' : i < bs.length := by simpa using hi
      rw [List.flatten_cons,
        List.getD_append_right _ _ _ _ (by rw [hb, Nat.succ_mul]; omega)]
      have hidx : (i + 1) * stride + r - b.length = i * stride + r := by
        rw [hb, Nat.succ_mul]; omega
      rw [hidx, List.getD_cons_succ]
      exact ih (fun x hx => hall x (List.mem_cons_of_mem b hx)) i hi'

/-- Reading channel `c` of pixel `j` inside a row's flattened pixel bytes. -/
theorem getD_pixel_flatten (row : List Pixel) (j c : Nat)
    (hj : j < row.length) (hc : c < 3) :
    ((row.map pixelBytes).flatten).getD (3 * j + c) 0
      = (pixelBytes (row.getD j ⟨0, 0, 0⟩)).getD c 0 := by
  induction row generalizing j with
  | nil => exact absurd hj (by simp)
  | cons p ps ih =>
    have hlen : (pixelBytes p).length = 3 := rfl
    cases j with
    | zero =>
      rw [List.map_cons, List.flatten_cons, Nat.mul_zero, Nat.zero_add,
        List.getD_append _ _ _ _ (by rw [hlen]; exact hc)]
      rfl
    | succ j =>
      have hj' : j < ps.length := by simpa using hj
      rw [List.map_cons, List.flatten_cons,
        List.getD_append_right _ _ _ _ (by rw [hlen]; omega)]
      have hidx : 3 * (j + 1) + c - (pixelBytes p).length = 3 * j + c := by
        rw [hlen]; omega
      rw [hidx, List.getD_cons_succ]
      exact ih j hj'

/-- Mapping a function over `List.range l.length` that agrees pointwise with
`l` reproduces `l`. -/
theorem map_range_getD {α : Type} (l : List α) (d : α) (f : Nat → α)
    (h : ∀ i, i < l.length → f i = l.getD i d) :
    (List.range l.length).map f = l := by
  induction l generalizing f with
  | nil => rfl
  | cons a as ih =>
    rw [List.length_cons, List.range_succ_eq_map, List.map_cons, List.map_map]
    have h0 : f 0 = a := h 0 (by simp)
    rw [h0]
    congr 1
    exact ih (f ∘ Nat.succ) (fun i hi => h (i + 1) (by simpa using hi))

theorem getD_map_lt {α β : Type} (l : List α) (f : α → β) (i : Nat)
    (hi : i < l.length) (d : β) (d' : α) :
    (l.map f).getD i d = f (l.getD i d') := by
  induction l generalizing i with
  | nil => exact absurd hi (by simp)
  | cons a as ih =>
    cases i with
    | zero => rfl
    | succ i =>
      rw [List.map_cons, List.getD_cons_succ, List.getD_cons_succ]
      exact ih i (by simpa using hi)

theorem getD_mem_lt {α : Type} (l : List α) (i : Nat) (hi : i < l.length)
    (d : α) : l.getD i d ∈ l := by
  induction l generalizing i with
  | nil => exact absurd hi (by simp)
  | cons a as ih =>
    cases i with
    | zero => exact List.mem_cons_self a as
    | succ i =>
      rw [List.getD_cons_succ]
      exact List.mem_cons_of_mem a (ih i (by simpa using hi))

theorem map_range_eq_of_getD {α : Type} (n : Nat) (l : List α) (d : α)
    (f : Nat → α) (hlen : l.length = n)
    (h : ∀ i, i < n → f i = l.getD i d) :
    (List.range n).map f = l := by
  subst hlen
  exact map_range_getD l d f h

set_option maxHeartbeats 1000000 in
/-- C4: encoding any non-empty rectangular well-formed grid with the writer
and decoding the resulting byte stream with the reader returns the original
grid (widths and heights within the C++ `int` range). -/
theorem C4_roundtrip (m : Grid) (w : Nat) (hne : 1 ≤ m.length) (hw1 : 1 ≤ w)
    (hrows : ∀ row ∈ m, row.length = w)
    (hwf : ∀ row ∈ m, ∀ p ∈ row, p.wf)
    (hwb : w < 2 ^ 31) (hhb : m.length < 2 ^ 31) :
    ∃ bs, guardarMatrizEnBMP m = some bs ∧ leerArchivoBMP (some bs) = some m := by
  have hne' : m ≠ [] := by
    intro h
    rw [h] at hne
    exact absurd hne (by simp)
  refine ⟨_, guardarMatrizEnBMP_eq m w hne' hrows, ?_⟩
  set data := (m.map (fun row => bloqueFila row w)).flatten with hdata
  have h28 := leU16_header_append m.length w data
  have h10 := leU32_header_append m.length w data 10 (by omega)
  have h18 := leU32_header_append m.length w data 18 (by omega)
  have h22 := leU32_header_append m.length w data 22 (by omega)
  have hlen54 : (guardarHeader m.length w).length = 54 :=
    guardarHeader_length m.length w
  have hDataRead : ∀ X : Nat,
      (guardarHeader m.length w ++ data).getD (54 + X) 0 = data.getD X 0 := by
    intro X
    rw [List.getD_append_right _ _ _ _ (by rw [hlen54]; omega), hlen54,
      show 54 + X - 54 = X from by omega]
  have hall : ∀ b ∈ m.map (fun row => bloqueFila row w),
      b.length = 3 * w + padImpl w := by
    intro b hb
    obtain ⟨row, hrowm, rfl⟩ := List.mem_map.mp hb
    exact bloqueFila_length row w (hrows row hrowm)
  have hpix : ∀ i j c, i < m.length → j < w → c < 3 →
      data.getD (i * (3 * w + padImpl w) + (3 * j + c)) 0
        = (pixelBytes ((m.getD i []).getD j ⟨0, 0, 0⟩)).getD c 0 := by
    intro i j c hi hj hc
    have hrowlen : (m.getD i []).length = w :=
      hrows _ (getD_mem_lt m i hi [])
    rw [hdata, getD_flatten_blocks _ (3 * w + padImpl w) hall i (3 * j + c)
        (by rw [List.length_map]; exact hi) (by unfold padImpl; omega),
      getD_map_lt m _ i hi [] []]
    unfold bloqueFila
    rw [List.getD_append _ _ _ _
        (by rw [pixelBytes_join_length, hrowlen]; omega)]
    exact getD_pixel_flatten _ j c (by rw [hrowlen]; exact hj) hc
  simp only [leerArchivoBMP, h28, h10, h18, h22, guardarHeader_dataOffset,
    guardarHeader_width m.length w hwb, guardarHeader_height m.length w hhb]
  rw [if_neg (by simp)]
  refine congrArg some ?_
  refine map_range_eq_of_getD m.length m [] _ rfl ?_
  intro i hi
  have hrowlen : (m.getD i []).length = w := hrows _ (getD_mem_lt m i hi [])
  refine map_range_eq_of_getD w (m.getD i []) ⟨0, 0, 0⟩ _ hrowlen ?_
  intro j hj
  have hjrow : j < (m.getD i []).length := by omega
  obtain ⟨hbw, hgw, hrw2⟩ : ((m.getD i []).getD j ⟨0, 0, 0⟩).wf :=
    hwf _ (getD_mem_lt m i hi []) _ (getD_mem_lt _ j hjrow ⟨0, 0, 0⟩)
  have b0 : (guardarHeader m.length w ++ data).getD
      (54 + i * (3 * w + padImpl w) + 3 * j) 0
      = ((m.getD i []).getD j ⟨0, 0, 0⟩).blue := by
    rw [show 54 + i * (3 * w + padImpl w) + 3 * j
        = 54 + (i * (3 * w + padImpl w) + (3 * j + 0)) from by ring,
      hDataRead, hpix i j 0 hi hj (by omega)]
    show ((m.getD i []).getD j ⟨0, 0, 0⟩).blue % 256 = _
    omega
  have b1 : (guardarHeader m.length w ++ data).getD
      (54 + i * (3 * w + padImpl w) + 3 * j + 1) 0
      = ((m.getD i []).getD j ⟨0, 0, 0⟩).green := by
    rw [show 54 + i * (3 * w + padImpl w) + 3 * j + 1
        = 54 + (i * (3 * w + padImpl w) + (3 * j + 1)) from by ring,
      hDataRead, hpix i j 1 hi hj (by omega)]
    show ((m.getD i []).getD j ⟨0, 0, 0⟩).green % 256 = _
    omega
  have b2 : (guardarHeader m.length w ++ data).getD
      (54 + i * (3 * w + padImpl w) + 3 * j + 2) 0
      = ((m.getD i []).getD j ⟨0, 0, 0⟩).red := by
    rw [show 54 + i * (3 * w + padImpl w) + 3 * j + 2
        = 54 + (i * (3 * w + padImpl w) + (3 * j + 2)) from by ring,
      hDataRead, hpix i j 2 hi hj (by omega)]
    show ((m.getD i []).getD j ⟨0, 0, 0⟩).red % 256 = _
    omega
  rw [b0, b1, b2]

/-- Witness for C4 at the 1x1 grid holding the pixel (b,g,r) = (10,20,30). -/
theorem C4_roundtrip_witness :
    ∃ bs, guardarMatrizEnBMP [[⟨10, 20, 30⟩]] = some bs
      ∧ leerArchivoBMP (some bs) = some [[⟨10, 20, 30⟩]] :=
  C4_roundtrip [[⟨10, 20, 30⟩]] 1 (by decide) (by decide)
    (by intro row hrow; simp at hrow; simp [hrow])
    (by intro row hrow p hp; simp at hrow; subst hrow; simp at hp; subst hp; decide)
    (by decide) (by decide)

/-- C6 counterexample: at width 5 the implemented padding `width % 4` equals
the BMP-standard amount `(4 - (3*width) % 4) % 4` (both are 1), refuting the
claim that the implementation uses a different, non-standard amount. -/
theorem C6_pad_counterexample :
    padImpl 5 = bmpStandardPad 5 ∧ padImpl 5 = 1 := by
  decide

/-- C6 (amended): the writer emits exactly `width % 4` zero bytes after each
row (and the reader skips the same `padImpl` amount, see `leerArchivoBMP`),
and this amount coincides with the BMP-standard `(4 - (3*width) % 4) % 4`
for every width, since `-3 ≡ 1 (mod 4)`. -/
theorem C6_padding_agrees (row : List Pixel) (w : Nat) (h : row.length = w) :
    filaBytes row w
      = some ((row.map pixelBytes).flatten ++ List.replicate (padImpl w) 0)
    ∧ ∀ v, padImpl v = bmpStandardPad v := by
  refine ⟨filaBytes_eq row w h, ?_⟩
  intro v
  unfold padImpl bmpStandardPad
  omega

/-- Witness for C6 at the single-pixel row of width 1. -/
theorem C6_padding_agrees_witness :
    filaBytes [⟨1, 2, 3⟩] 1
      = some (([⟨1, 2, 3⟩].map pixelBytes).flatten
          ++ List.replicate (padImpl 1) 0)
    ∧ ∀ v, padImpl v = bmpStandardPad v :=
  C6_padding_agrees [⟨1, 2, 3⟩] 1 (by decide)

/-- C7: the reader fails exactly when the file cannot be opened (`none`) or
the header's bits-per-pixel field is not 24; a stream holding only a header
that declares a 1x1 24-bit image with no pixel data at all is not detected
as malformed and decodes to a single zeroed pixel. -/
theorem C7_reader_failure_iff :
    leerArchivoBMP none = none
    ∧ (∀ bs : List Nat,
        (∃ g, leerArchivoBMP (some bs) = some g) ↔ leU16 bs 28 = 24)
    ∧ leerArchivoBMP (some (guardarHeader 1 1)) = some [[⟨0, 0, 0⟩]] := by
  refine ⟨rfl, ?_, by decide⟩
  intro bs
  simp only [leerArchivoBMP]
  by_cases h : leU16 bs 28 = 24
  · rw [if_neg (fun hc => hc h)]
    exact ⟨fun _ => h, fun _ => ⟨_, rfl⟩⟩
  · rw [if_pos h]
    constructor
    · rintro ⟨g, hg⟩
      exact absurd hg (by simp)
    · intro hc
      exact absurd hc h

/-- C10: the writer reads `matriz[0]` unconditionally, so every access is in
bounds for a non-empty grid of equal-length rows, while the empty grid makes
the access to row 0 out of bounds. -/
theorem C10_writer_bounds (m : Grid) (w : Nat) (hne : m ≠ [])
    (hrows : ∀ row ∈ m, row.length = w) :
    (guardarMatrizEnBMP m).isSome ∧ guardarMatrizEnBMP ([] : Grid) = none := by
  refine ⟨?_, rfl⟩
  rw [guardarMatrizEnBMP_eq m w hne hrows]
  rfl

/-- Witness for C10 at a one-pixel grid. -/
theorem C10_writer_bounds_witness :
    (guardarMatrizEnBMP [[⟨0, 0, 0⟩]]).isSome
      ∧ guardarMatrizEnBMP ([] : Grid) = none :=
  C10_writer_bounds [[⟨0, 0, 0⟩]] 1 (by decide)
    (by intro row h; simp at h; simp [h])
